import Mathlib

/-!
Shallow embedding of the GoGraphSMTP relay (`main.go`): the SMTP session state
machine, the header parser, and the translation performed by `Session.Data`
into a Microsoft Graph send-mail request.  Go strings are modelled as lists of
characters; the Graph client and the file system are external collaborators,
modelled respectively by returning the request that would be posted and by a
function from paths to optional file contents.
-/

set_option maxHeartbeats 1000000

namespace GoGraphSMTP

/-- Strings are modelled as lists of characters. -/
abbrev Str := List Char

/-- Convert a Lean string literal to the character-list model. -/
def strLit (s : String) : Str := s.data

/-- Whitespace recognised by Go `strings.TrimSpace` (ASCII range). -/
def isSpaceGo (c : Char) : Bool :=
  c = ' ' || c = '\t' || c = '\n' || c = '\x0b' || c = '\x0c' || c = '\r'

/-- Embedding of Go `strings.TrimSpace`. -/
def trimSpace (s : Str) : Str :=
  ((s.dropWhile isSpaceGo).reverse.dropWhile isSpaceGo).reverse

/-- Embedding of Go `strings.ToLower` (character-wise). -/
def toLowerGo (s : Str) : Str := s.map Char.toLower

/-- Embedding of Go `strings.Contains s sub`: `sub` occurs contiguously in
`s`, i.e. it is a prefix of some suffix of `s`. -/
def containsSub (s sub : Str) : Bool :=
  match s with
  | [] => sub.isPrefixOf []
  | c :: rest => sub.isPrefixOf (c :: rest) || containsSub rest sub

/-- The check `strings.HasPrefix(line, " ") || strings.HasPrefix(line, "\t")`
from `parseHeaders`. -/
def startsWithSpaceTab (l : Str) : Bool :=
  [' '].isPrefixOf l || ['\t'].isPrefixOf l

/-- Embedding of Go `strings.Join` (used to state `strings.SplitN`). -/
def goJoin (sep : Str) : List Str → Str
  | [] => []
  | [x] => x
  | x :: y :: rest => x ++ sep ++ goJoin sep (y :: rest)

/-- Fuel-indexed worker for Go `strings.Split`: scan left to right, starting a
new piece after each non-overlapping occurrence of `sep`.  The fuel only makes
the recursion structural (so that it computes in the kernel); fuel `s.length`
is always sufficient. -/
def splitAuxF (sep : Str) : Nat → Str → Str → List Str
  | _, [], acc => [acc.reverse]
  | 0, s, acc => [acc.reverse ++ s]
  | fuel + 1, c :: rest, acc =>
    if sep.isPrefixOf (c :: rest) then
      acc.reverse :: splitAuxF sep fuel (rest.drop (sep.length - 1)) []
    else
      splitAuxF sep fuel rest (c :: acc)

/-- Embedding of Go `strings.Split s sep` for a non-empty separator. -/
def splitOnList (sep s : Str) : List Str := splitAuxF sep s.length s []

/-- Embedding of Go `strings.SplitN s sep 2`: the piece before the first
occurrence of `sep`, then the untouched remainder. -/
def splitN2 (sep s : Str) : List Str :=
  match splitOnList sep s with
  | x :: y :: rest => [x, goJoin sep (y :: rest)]
  | other => other

/-- The CRLF line separator. -/
def crlf : Str := ['\r', '\n']

/-- Go `map[string]string` assignment `m[k] = v`: replace the entry if the key
is present, otherwise add a new entry. -/
def mapInsert (m : List (Str × Str)) (k v : Str) : List (Str × Str) :=
  if m.any (fun p => p.1 == k) then
    m.map (fun p => if p.1 == k then (k, v) else p)
  else
    m ++ [(k, v)]

/-- Go map lookup `m[k]`, returning the string zero value when absent. -/
def mapGet (m : List (Str × Str)) (k : Str) : Str :=
  match m.find? (fun p => p.1 == k) with
  | some p => p.2
  | none => []

/-- The loop state of `parseHeaders`: the map built so far, the name of the
header currently being assembled, and its pending value builder. -/
structure PHState where
  headers : List (Str × Str)
  currentHeader : Str
  currentValue : Str
deriving DecidableEq

/-- One iteration of the `parseHeaders` loop, over a single line. -/
def parseHeadersLine (st : PHState) (line : Str) : PHState :=
  if line = [] then st
  else if startsWithSpaceTab line then
    { st with currentValue := st.currentValue ++ [' '] ++ trimSpace line }
  else
    let st1 :=
      if st.currentHeader ≠ [] then
        { st with headers := mapInsert st.headers st.currentHeader st.currentValue,
                  currentValue := [] }
      else st
    match splitN2 [':'] line with
    | [name, value] =>
      { st1 with currentHeader := trimSpace name,
                 currentValue := st1.currentValue ++ trimSpace value }
    | _ => st1

/-- The flush `headers[currentHeader] = currentValue.String()` performed after
the final line (and, inside the loop, when a new header line starts). -/
def flushState (st : PHState) : List (Str × Str) :=
  if st.currentHeader ≠ [] then mapInsert st.headers st.currentHeader st.currentValue
  else st.headers

/-- Embedding of `parseHeaders` from `main.go`. -/
def parseHeaders (headerData : Str) : List (Str × Str) :=
  flushState ((splitOnList crlf headerData).foldl parseHeadersLine ⟨[], [], []⟩)

/-- Graph API body type (`models.TEXT_BODYTYPE` / `models.HTML_BODYTYPE`). -/
inductive BodyType
  | text
  | html
deriving DecidableEq

/-- Graph API recipient (`models.Recipient` carrying an email address). -/
structure Recipient where
  address : Str
deriving DecidableEq

/-- Graph API item body (`models.ItemBody`). -/
structure ItemBody where
  content : Str
  contentType : BodyType
deriving DecidableEq

/-- Graph API file attachment (`models.FileAttachment`). -/
structure FileAttachment where
  name : Str
  contentBytes : List Nat
deriving DecidableEq

/-- Graph API message (`models.Message`). -/
structure Message where
  subject : Str
  body : ItemBody
  toRecipients : List Recipient
  attachments : List FileAttachment
deriving DecidableEq

/-- Graph API send-mail request (`users.ItemSendMailPostRequestBody`). -/
structure SendMailRequest where
  message : Message
  saveToSentItems : Bool
deriving DecidableEq

/-- The file system seen by `os.ReadFile`: a path maps to its contents, or to
`none` when unreadable. -/
def FS : Type := Str → Option (List Nat)

/-- A file system on which no path is readable. -/
def emptyFS : FS := fun _ => none

/-- SMTP session state (the `Session` struct): the `from` field shared by
`AuthPlain` and `Mail`, and the recipient list `to`. -/
structure Session where
  «from» : Str
  «to» : List Str
deriving DecidableEq

/-- `Backend.NewSession`: a zero-valued session. -/
def newSession : Session := { «from» := [], «to» := [] }

/-- `Session.AuthPlain`: store the username in `from` and return a `nil`
error. -/
def authPlain (s : Session) (username _password : Str) : Session × Option Str :=
  ({ s with «from» := username }, none)

/-- `Session.Mail`: store the declared sender in `from` and return a `nil`
error. -/
def mail (s : Session) (f : Str) : Session × Option Str :=
  ({ s with «from» := f }, none)

/-- `Session.Rcpt`: append the recipient and return a `nil` error. -/
def rcpt (s : Session) (t : Str) : Session × Option Str :=
  ({ s with «to» := s.«to» ++ [t] }, none)

/-- `Session.Reset`: set `from` to the empty string and `to` to the empty
list. -/
def reset (_s : Session) : Session := { «from» := [], «to» := [] }

/-- The attachment loop of `Session.Data`: the attachments built, and the raw
path tokens whose read failed (each of which is logged as a warning). -/
def buildAttachments (fs : FS) (headers : List (Str × Str)) :
    List FileAttachment × List Str :=
  if 0 < (mapGet headers (strLit "Attachments")).length then
    (splitOnList [','] (mapGet headers (strLit "Attachments"))).foldl
      (fun acc path =>
        match fs (trimSpace path) with
        | none => (acc.1, acc.2 ++ [path])
        | some bytes =>
            (acc.1 ++ [{ name := trimSpace path, contentBytes := bytes }], acc.2))
      ([], [])
  else ([], [])

/-- The content-type inference of `Session.Data`: default text, html when the
`Content-Type` value contains "html" after lower-casing. -/
def inferContentType (headers : List (Str × Str)) : BodyType :=
  if containsSub (toLowerGo (mapGet headers (strLit "Content-Type"))) (strLit "html") then
    BodyType.html
  else BodyType.text

/-- The outcome of `Session.Data` up to the Graph call: the user id passed to
`ByUserId`, the request posted to `SendMail`, and the attachment warnings. -/
structure DataResult where
  userId : Str
  request : SendMailRequest
  warnings : List Str
deriving DecidableEq

/-- Embedding of `Session.Data` from `main.go` (the Graph `Post` itself is the
external send collaborator; `sessionData` returns the inputs handed to it). -/
def sessionData (fs : FS) (s : Session) (data : Str) : DataResult :=
  let parts := splitOnList (crlf ++ crlf) data
  let headers := parseHeaders (parts.getD 0 [])
  let body := if 1 < parts.length then parts.getD 1 [] else []
  let toRecipients := s.«to».map (fun addr => { address := addr : Recipient })
  let att := buildAttachments fs headers
  { userId := s.«from»,
    request :=
      { message :=
          { subject := mapGet headers (strLit "Subject"),
            body := { content := body, contentType := inferContentType headers },
            toRecipients := toRecipients,
            attachments := att.1 },
        saveToSentItems := true },
    warnings := att.2 }

/-! ### Lemmas about the embedded `strings.Split` -/

theorem splitAuxF_nil (sep : Str) (f : Nat) (acc : Str) :
    splitAuxF sep f [] acc = [acc.reverse] := by
  cases f <;> rfl

theorem splitAuxF_succ_cons (sep : Str) (f : Nat) (c : Char) (rest acc : Str) :
    splitAuxF sep (f + 1) (c :: rest) acc =
      if sep.isPrefixOf (c :: rest) then
        acc.reverse :: splitAuxF sep f (rest.drop (sep.length - 1)) []
      else
        splitAuxF sep f rest (c :: acc) := rfl

theorem splitAuxF_succ_cons_pos (sep : Str) (f : Nat) (c : Char) (rest acc : Str)
    (hp : sep.isPrefixOf (c :: rest) = true) :
    splitAuxF sep (f + 1) (c :: rest) acc =
      acc.reverse :: splitAuxF sep f (rest.drop (sep.length - 1)) [] := by
  rw [splitAuxF_succ_cons, if_pos hp]

theorem splitAuxF_succ_cons_neg (sep : Str) (f : Nat) (c : Char) (rest acc : Str)
    (hp : sep.isPrefixOf (c :: rest) = false) :
    splitAuxF sep (f + 1) (c :: rest) acc = splitAuxF sep f rest (c :: acc) := by
  rw [splitAuxF_succ_cons, if_neg (by simp [hp])]

theorem isPrefixOf_self_append (l t : Str) : l.isPrefixOf (l ++ t) = true := by
  induction l with
  | nil => cases t <;> rfl
  | cons a as ih => simp [List.isPrefixOf, ih]

theorem isPrefixOf_exists_append (l : Str) :
    ∀ t : Str, l.isPrefixOf t = true → ∃ v, t = l ++ v := by
  induction l with
  | nil => exact fun t _ => ⟨t, rfl⟩
  | cons a as ih =>
    intro t ht
    cases t with
    | nil => simp [List.isPrefixOf] at ht
    | cons b bs =>
      simp only [List.isPrefixOf, Bool.and_eq_true, beq_iff_eq] at ht
      obtain ⟨v, hv⟩ := ih bs ht.2
      exact ⟨v, by simp [ht.1, hv]⟩

theorem isPrefixOf_cons_of_ne (a b : Char) (l t : Str) (h : b ≠ a) :
    (a :: l).isPrefixOf (b :: t) = false := by
  simp [List.isPrefixOf]
  intro hab
  exact absurd hab.symm h

/-- The fuel of `splitAuxF` is irrelevant as long as it is at least the length
of the string being split. -/
theorem splitAuxF_fuel_irrel (sep : Str) :
    ∀ f : Nat, ∀ s acc : Str, s.length ≤ f →
      splitAuxF sep f s acc = splitAuxF sep s.length s acc := by
  intro f
  induction f using Nat.strong_induction_on with
  | _ f ih =>
    intro s acc hf
    cases s with
    | nil => simp [splitAuxF_nil]
    | cons c rest =>
      cases f with
      | zero => simp at hf
      | succ f' =>
        simp only [List.length_cons] at hf
        have hlen : (rest.drop (sep.length - 1)).length ≤ rest.length := by
          rw [List.length_drop]; omega
        cases hp : sep.isPrefixOf (c :: rest) with
        | true =>
          rw [splitAuxF_succ_cons_pos sep f' c rest acc hp, List.length_cons,
            splitAuxF_succ_cons_pos sep rest.length c rest acc hp,
            ih f' (by omega) _ [] (by omega),
            ih rest.length (by omega) _ [] (by omega)]
        | false =>
          rw [splitAuxF_succ_cons_neg sep f' c rest acc hp, List.length_cons,
            splitAuxF_succ_cons_neg sep rest.length c rest acc hp,
            ih f' (by omega) rest (c :: acc) (by omega),
            ih rest.length (by omega) rest (c :: acc) (by omega)]

theorem splitAuxF_ne_nil (sep : Str) :
    ∀ (f : Nat) (s acc : Str), splitAuxF sep f s acc ≠ [] := by
  intro f
  induction f with
  | zero =>
    intro s acc
    cases s <;> simp [splitAuxF]
  | succ f' ih =>
    intro s acc
    cases s with
    | nil => simp [splitAuxF_nil]
    | cons c rest =>
      cases hp : sep.isPrefixOf (c :: rest) with
      | true => rw [splitAuxF_succ_cons_pos sep f' c rest acc hp]; simp
      | false => rw [splitAuxF_succ_cons_neg sep f' c rest acc hp]; exact ih rest (c :: acc)

theorem splitOnList_ne_nil (sep s : Str) : splitOnList sep s ≠ [] :=
  splitAuxF_ne_nil sep s.length s []

/-- Scanning past characters different from the head of the separator just
moves them into the accumulator. -/
theorem splitAuxF_skip (s0 : Char) (stail : Str) :
    ∀ (p : Str), (∀ a ∈ p, a ≠ s0) →
      ∀ (f : Nat) (t acc : Str), (p ++ t).length ≤ f →
        splitAuxF (s0 :: stail) f (p ++ t) acc =
          splitAuxF (s0 :: stail) (f - p.length) t (p.reverse ++ acc) := by
  intro p
  induction p with
  | nil => intro _ f t acc _; simp
  | cons a p' ih =>
    intro hnot f t acc hf
    simp only [List.length_append, List.length_cons] at hf
    cases f with
    | zero => omega
    | succ f' =>
      have ha : a ≠ s0 := hnot a (List.mem_cons_self a p')
      rw [List.cons_append, splitAuxF_succ_cons_neg _ _ _ _ _
        (isPrefixOf_cons_of_ne s0 a stail (p' ++ t) ha)]
      rw [ih (fun x hx => hnot x (List.mem_cons_of_mem a hx)) f' t (a :: acc)
        (by simp only [List.length_append]; omega)]
      simp [List.append_assoc]

/-- Meeting the separator itself closes the current piece and skips the
separator. -/
theorem splitAuxF_sep (s0 : Char) (stail : Str) (f : Nat) (t acc : Str)
    (hf : ((s0 :: stail) ++ t).length ≤ f) :
    splitAuxF (s0 :: stail) f ((s0 :: stail) ++ t) acc =
      acc.reverse :: splitAuxF (s0 :: stail) t.length t [] := by
  simp only [List.length_append, List.length_cons] at hf
  cases f with
  | zero => omega
  | succ f' =>
    have hpre : (s0 :: stail).isPrefixOf (s0 :: (stail ++ t)) = true := by
      rw [← List.cons_append]; exact isPrefixOf_self_append _ _
    rw [List.cons_append, splitAuxF_succ_cons_pos _ _ _ _ _ hpre]
    have hdrop : (stail ++ t).drop ((s0 :: stail).length - 1) = t := by
      simp only [List.length_cons, Nat.add_sub_cancel]
      exact List.drop_left stail t
    rw [hdrop, splitAuxF_fuel_irrel (s0 :: stail) f' t [] (by omega)]

/-- Joining the pieces of a split with the same separator restores the
string. -/
theorem goJoin_splitAuxF (s0 : Char) (stail : Str) :
    ∀ (f : Nat) (s acc : Str), s.length ≤ f →
      goJoin (s0 :: stail) (splitAuxF (s0 :: stail) f s acc) = acc.reverse ++ s := by
  intro f
  induction f using Nat.strong_induction_on with
  | _ f ih =>
    intro s acc hf
    cases s with
    | nil => simp [splitAuxF_nil, goJoin]
    | cons c rest =>
      cases f with
      | zero => simp at hf
      | succ f' =>
        simp only [List.length_cons] at hf
        cases hp : (s0 :: stail).isPrefixOf (c :: rest) with
        | true =>
          rw [splitAuxF_succ_cons_pos _ _ _ _ _ hp]
          obtain ⟨v, hv⟩ := isPrefixOf_exists_append (s0 :: stail) (c :: rest) hp
          have hrest : rest = stail ++ v := by
            have hv' := hv
            simp only [List.cons_append, List.cons.injEq] at hv'
            exact hv'.2
          have hvd : rest.drop ((s0 :: stail).length - 1) = v := by
            simp only [List.length_cons, Nat.add_sub_cancel, hrest]
            exact List.drop_left stail v
          have hvf : v.length ≤ f' := by
            have : rest.length = stail.length + v.length := by
              rw [hrest, List.length_append]
            omega
          rw [hvd]
          obtain ⟨y, ys, hys⟩ :=
            List.exists_cons_of_ne_nil (splitAuxF_ne_nil (s0 :: stail) f' v [])
          rw [hys, goJoin, ← hys, ih f' (by omega) v [] hvf]
          simp only [List.reverse_nil, List.nil_append]
          rw [List.append_assoc, ← hv]
        | false =>
          rw [splitAuxF_succ_cons_neg _ _ _ _ _ hp,
            ih f' (by omega) rest (c :: acc) (by omega)]
          simp

theorem goJoin_splitOnList (s0 : Char) (stail s : Str) :
    goJoin (s0 :: stail) (splitOnList (s0 :: stail) s) = s :=
  goJoin_splitAuxF s0 stail s.length s [] (Nat.le_refl _)

/-- Splitting `name ++ ":" ++ value` of a colon-free `name` with `SplitN _ 2`
yields exactly the name and the value. -/
theorem splitOnList_colon (name value : Str) (h : ':' ∉ name) :
    splitOnList [':'] (name ++ ':' :: value) =
      name :: splitOnList [':'] value := by
  unfold splitOnList
  rw [splitAuxF_skip ':' [] name (fun a ha => by rintro rfl; exact h ha)
    (name ++ ':' :: value).length (':' :: value) [] (Nat.le_refl _)]
  simp only [List.append_nil]
  rw [splitAuxF_fuel_irrel [':'] _ (':' :: value) name.reverse
    (by simp only [List.length_append, List.length_cons]; omega)]
  have hca : (':' :: value) = [':'] ++ value := rfl
  rw [show splitAuxF [':'] (':' :: value).length (':' :: value) name.reverse
      = splitAuxF [':'] ([':'] ++ value).length ([':'] ++ value) name.reverse from rfl]
  rw [splitAuxF_sep ':' [] ([':'] ++ value).length value name.reverse (Nat.le_refl _)]
  simp

theorem splitN2_colon (name value : Str) (h : ':' ∉ name) :
    splitN2 [':'] (name ++ ':' :: value) = [name, value] := by
  unfold splitN2
  rw [splitOnList_colon name value h]
  obtain ⟨y, ys, hys⟩ := List.exists_cons_of_ne_nil (splitOnList_ne_nil [':'] value)
  rw [hys]
  have hjoin : goJoin [':'] (y :: ys) = value := by
    rw [← hys]; exact goJoin_splitOnList ':' [] value
  simp [hjoin]

/-- Splitting the separator-join of lines free of the separator head restores
the lines. -/
theorem splitOnList_goJoin_lines (s0 : Char) (stail : Str) :
    ∀ lines : List Str, lines ≠ [] → (∀ l ∈ lines, s0 ∉ l) →
      splitOnList (s0 :: stail) (goJoin (s0 :: stail) lines) = lines := by
  intro lines
  induction lines with
  | nil => intro h; exact absurd rfl h
  | cons l rest ih =>
    intro _ hfree
    cases rest with
    | nil =>
      simp only [goJoin]
      unfold splitOnList
      have hsk := splitAuxF_skip s0 stail l
        (fun a ha => by rintro rfl; exact hfree l (List.mem_cons_self l []) ha)
        l.length [] [] (by simp)
      simp only [List.append_nil] at hsk
      rw [hsk, splitAuxF_nil]
      simp
    | cons l2 rest2 =>
      have hgj : goJoin (s0 :: stail) (l :: l2 :: rest2) =
          l ++ ((s0 :: stail) ++ goJoin (s0 :: stail) (l2 :: rest2)) := by
        rw [goJoin, List.append_assoc]
      rw [hgj]
      unfold splitOnList
      rw [splitAuxF_skip s0 stail l
        (fun a ha => by rintro rfl; exact hfree l (List.mem_cons_self l _) ha)
        _ _ [] (Nat.le_refl _)]
      simp only [List.append_nil]
      rw [splitAuxF_fuel_irrel (s0 :: stail) _ _ l.reverse
        (by simp only [List.length_append]; omega)]
      rw [splitAuxF_sep s0 stail _ _ l.reverse (Nat.le_refl _)]
      simp only [List.reverse_reverse]
      rw [← splitOnList]
      rw [ih (by simp) (fun x hx => hfree x (List.mem_cons_of_mem l hx))]

/-! ### Lemmas about the Go map model -/

theorem anyKey_iff (m : List (Str × Str)) (k : Str) :
    m.any (fun p => p.1 == k) = true ↔ k ∈ m.map Prod.fst := by
  simp only [List.any_eq_true, beq_iff_eq, List.mem_map]

theorem find?_map_upd (k v : Str) :
    ∀ m : List (Str × Str), m.any (fun p => p.1 == k) = true →
      (m.map (fun p => if p.1 == k then (k, v) else p)).find? (fun p => p.1 == k)
        = some (k, v) := by
  intro m
  induction m with
  | nil => intro h; simp at h
  | cons p m' ih =>
    intro hany
    cases hpk : (p.1 == k) with
    | true =>
      simp only [List.map_cons, hpk, if_true]
      exact List.find?_cons_of_pos _ (by simp)
    | false =>
      simp only [List.map_cons, hpk, if_false, Bool.false_eq_true]
      rw [List.find?_cons_of_neg _ (by simp [hpk])]
      apply ih
      simpa [hpk] using hany

theorem find?_append_new (k v : Str) :
    ∀ m : List (Str × Str), m.any (fun p => p.1 == k) = false →
      (m ++ [(k, v)]).find? (fun p => p.1 == k) = some (k, v) := by
  intro m
  induction m with
  | nil => simp
  | cons p m' ih =>
    intro hany
    simp only [List.any_cons, Bool.or_eq_false_iff] at hany
    rw [List.cons_append, List.find?_cons_of_neg _ (by simp [hany.1])]
    exact ih hany.2

theorem find?_map_upd_ne (k v k' : Str) (hk : (k == k') = false) :
    ∀ m : List (Str × Str),
      (m.map (fun p => if p.1 == k then (k, v) else p)).find? (fun p => p.1 == k')
        = m.find? (fun p => p.1 == k') := by
  intro m
  induction m with
  | nil => rfl
  | cons p m' ih =>
    cases hpk : (p.1 == k) with
    | true =>
      have hp1 : p.1 = k := by simpa using hpk
      simp only [List.map_cons, hpk, if_true]
      rw [List.find?_cons_of_neg _ (by simp; intro hkk; simp [hkk] at hk),
        List.find?_cons_of_neg _ (by simp [hp1]; intro hkk; simp [hkk] at hk)]
      exact ih
    | false =>
      simp only [List.map_cons, hpk, if_false, Bool.false_eq_true]
      cases hpk' : (p.1 == k') with
      | true =>
        rw [List.find?_cons_of_pos _ (by simp [hpk']),
          List.find?_cons_of_pos _ (by simp [hpk'])]
      | false =>
        rw [List.find?_cons_of_neg _ (by simp [hpk']),
          List.find?_cons_of_neg _ (by simp [hpk'])]
        exact ih

theorem find?_append_ne (k v k' : Str) (hk : (k == k') = false) :
    ∀ m : List (Str × Str),
      (m ++ [(k, v)]).find? (fun p => p.1 == k') = m.find? (fun p => p.1 == k') := by
  intro m
  induction m with
  | nil =>
    simp only [List.nil_append, List.find?_nil]
    rw [List.find?_cons_of_neg _ (by simp; intro hkk; simp [hkk] at hk)]
    rfl
  | cons p m' ih =>
    cases hpk' : (p.1 == k') with
    | true =>
      rw [List.cons_append, List.find?_cons_of_pos _ (by simp [hpk']),
        List.find?_cons_of_pos _ (by simp [hpk'])]
    | false =>
      rw [List.cons_append, List.find?_cons_of_neg _ (by simp [hpk']),
        List.find?_cons_of_neg _ (by simp [hpk'])]
      exact ih

theorem mapGet_mapInsert_self (m : List (Str × Str)) (k v : Str) :
    mapGet (mapInsert m k v) k = v := by
  unfold mapInsert mapGet
  cases hany : m.any (fun p => p.1 == k) with
  | true =>
    simp only [hany, if_true]
    rw [find?_map_upd k v m hany]
  | false =>
    simp only [hany, Bool.false_eq_true, if_false]
    rw [find?_append_new k v m hany]

theorem mapGet_mapInsert_ne (m : List (Str × Str)) (k v k' : Str) (h : k' ≠ k) :
    mapGet (mapInsert m k v) k' = mapGet m k' := by
  have hk : (k == k') = false := by simp; exact fun hh => h hh.symm
  unfold mapInsert mapGet
  cases hany : m.any (fun p => p.1 == k) with
  | true =>
    simp only [hany, if_true]
    rw [find?_map_upd_ne k v k' hk m]
  | false =>
    simp only [hany, Bool.false_eq_true, if_false]
    rw [find?_append_ne k v k' hk m]

theorem mapInsert_keys_pos (m : List (Str × Str)) (k v : Str)
    (hany : m.any (fun p => p.1 == k) = true) :
    (mapInsert m k v).map Prod.fst = m.map Prod.fst := by
  unfold mapInsert
  simp only [hany, if_true, List.map_map]
  apply List.map_congr_left
  intro p _
  cases hpk : (p.1 == k) with
  | true =>
    have : p.1 = k := by simpa using hpk
    simp [Function.comp, hpk, this]
  | false => simp [Function.comp, hpk]

theorem mapInsert_keys_neg (m : List (Str × Str)) (k v : Str)
    (hany : m.any (fun p => p.1 == k) = false) :
    (mapInsert m k v).map Prod.fst = m.map Prod.fst ++ [k] := by
  unfold mapInsert
  simp [hany]

theorem mem_keys_mapInsert (m : List (Str × Str)) (k v n : Str) :
    n ∈ (mapInsert m k v).map Prod.fst ↔ n = k ∨ n ∈ m.map Prod.fst := by
  cases hany : m.any (fun p => p.1 == k) with
  | true =>
    rw [mapInsert_keys_pos m k v hany]
    have hkmem : k ∈ m.map Prod.fst := (anyKey_iff m k).mp hany
    constructor
    · exact fun h => Or.inr h
    · rintro (rfl | h)
      · exact hkmem
      · exact h
  | false =>
    rw [mapInsert_keys_neg m k v hany]
    simp [or_comm]

theorem nodup_keys_mapInsert (m : List (Str × Str)) (k v : Str)
    (h : (m.map Prod.fst).Nodup) : ((mapInsert m k v).map Prod.fst).Nodup := by
  cases hany : m.any (fun p => p.1 == k) with
  | true => rw [mapInsert_keys_pos m k v hany]; exact h
  | false =>
    rw [mapInsert_keys_neg m k v hany]
    have hk : k ∉ m.map Prod.fst := fun hmem => by
      rw [(anyKey_iff m k).mpr hmem] at hany
      exact Bool.true_eq_false.mp hany
    simp [List.nodup_append, h, hk]

/-! ### A model of well-formed header blocks -/

/-- One logical header of a block: a `name: value` line followed by its
continuation lines. -/
structure HeaderLine where
  name : Str
  value : Str
  conts : List Str
deriving DecidableEq

/-- The physical first line `name ++ ":" ++ value` of a logical header. -/
def renderFirst (h : HeaderLine) : Str := h.name ++ ':' :: h.value

/-- All physical lines of one logical header. -/
def renderLine (h : HeaderLine) : List Str := renderFirst h :: h.conts

/-- All physical lines of a block of logical headers. -/
def renderLines : List HeaderLine → List Str
  | [] => []
  | h :: t => renderLine h ++ renderLines t

/-- The raw header block: the physical lines joined by CRLF. -/
def renderBlock (hs : List HeaderLine) : Str := goJoin crlf (renderLines hs)

/-- The unfolded value the parser is expected to produce for one logical
header: the trimmed value, then each trimmed continuation joined by a single
space. -/
def foldedValue (h : HeaderLine) : Str :=
  h.conts.foldl (fun a c => a ++ [' '] ++ trimSpace c) (trimSpace h.value)

/-- Well-formedness of a logical header: non-empty trimmed colon-free name, a
first line that is not a continuation line, CR-free contents, and continuation
lines that do start with space or tab. -/
abbrev WFHeader (h : HeaderLine) : Prop :=
  h.name ≠ [] ∧ trimSpace h.name = h.name ∧ ':' ∉ h.name ∧
  startsWithSpaceTab (renderFirst h) = false ∧
  '\r' ∉ h.name ∧ '\r' ∉ h.value ∧
  ∀ c ∈ h.conts, startsWithSpaceTab c = true ∧ '\r' ∉ c

/-! ### Characterisation of `parseHeaders` on rendered blocks -/

theorem startsWithSpaceTab_ne_nil (c : Str) (h : startsWithSpaceTab c = true) :
    c ≠ [] := by
  cases c with
  | nil => simp [startsWithSpaceTab, List.isPrefixOf] at h
  | cons a l => exact List.cons_ne_nil a l

theorem parseHeadersLine_cont (st : PHState) (c : Str)
    (h : startsWithSpaceTab c = true) :
    parseHeadersLine st c =
      { st with currentValue := st.currentValue ++ [' '] ++ trimSpace c } := by
  unfold parseHeadersLine
  rw [if_neg (startsWithSpaceTab_ne_nil c h), if_pos h]

theorem foldl_conts (conts : List Str) :
    (∀ c ∈ conts, startsWithSpaceTab c = true) →
    ∀ st : PHState,
      conts.foldl parseHeadersLine st =
        { st with currentValue :=
            conts.foldl (fun a c => a ++ [' '] ++ trimSpace c) st.currentValue } := by
  induction conts with
  | nil => intro _ st; rfl
  | cons c cs ih =>
    intro hws st
    rw [List.foldl_cons, List.foldl_cons,
      parseHeadersLine_cont st c (hws c (List.mem_cons_self c cs)),
      ih (fun x hx => hws x (List.mem_cons_of_mem c hx))]

theorem foldl_conts_pull (conts : List Str) :
    ∀ x v : Str,
      conts.foldl (fun a c => a ++ [' '] ++ trimSpace c) (x ++ v) =
        x ++ conts.foldl (fun a c => a ++ [' '] ++ trimSpace c) v := by
  induction conts with
  | nil => intro x v; rfl
  | cons c cs ih =>
    intro x v
    rw [List.foldl_cons, List.foldl_cons, List.append_assoc x v, List.append_assoc x,
      ih x]

theorem renderFirst_ne_nil (h : HeaderLine) (hn : h.name ≠ []) :
    renderFirst h ≠ [] := by
  unfold renderFirst
  cases hname : h.name with
  | nil => exact absurd hname hn
  | cons a l => simp

/-- Processing all physical lines of one well-formed logical header: the
pending header (if any) is flushed, and the new header becomes pending with
its folded value (prefixed by any junk accumulated while no header was
pending). -/
theorem foldl_renderLine (h : HeaderLine) (hw : WFHeader h) (st : PHState) :
    (renderLine h).foldl parseHeadersLine st =
      { headers := flushState st,
        currentHeader := h.name,
        currentValue :=
          (if st.currentHeader = [] then st.currentValue else []) ++ foldedValue h } := by
  obtain ⟨hn, htrim, hcolon, hnotcont, _, _, hconts⟩ := hw
  rw [renderLine, List.foldl_cons]
  have hsplit : splitN2 [':'] (renderFirst h) = [h.name, h.value] :=
    splitN2_colon h.name h.value hcolon
  have hfirst : parseHeadersLine st (renderFirst h) =
      { headers := flushState st,
        currentHeader := h.name,
        currentValue :=
          (if st.currentHeader = [] then st.currentValue else []) ++ trimSpace h.value } := by
    unfold parseHeadersLine
    rw [if_neg (renderFirst_ne_nil h hn), hnotcont]
    simp only [Bool.false_eq_true, if_false]
    rw [hsplit]
    by_cases hch : st.currentHeader = []
    · simp [flushState, hch, htrim]
    · simp [flushState, hch, htrim]
  rw [hfirst, foldl_conts h.conts (fun c hc => (hconts c hc).1)]
  simp only [foldedValue]
  rw [foldl_conts_pull h.conts]

theorem renderLines_cons (h : HeaderLine) (t : List HeaderLine) :
    renderLines (h :: t) = renderLine h ++ renderLines t := rfl

/-- Processing all physical lines of a well-formed block threads the flush of
each finished header through a last-wins insert fold. -/
theorem foldl_renderLines (hs : List HeaderLine) :
    (∀ h ∈ hs, WFHeader h) →
    ∀ st : PHState, (st.currentHeader = [] → st.currentValue = []) →
      flushState ((renderLines hs).foldl parseHeadersLine st) =
        hs.foldl (fun m h => mapInsert m h.name (foldedValue h)) (flushState st) := by
  induction hs with
  | nil => intro _ st _; rfl
  | cons h t ih =>
    intro hw st hinv
    rw [renderLines_cons, List.foldl_append,
      foldl_renderLine h (hw h (List.mem_cons_self h t)) st]
    have hjunk : (if st.currentHeader = [] then st.currentValue else []) = [] := by
      by_cases hch : st.currentHeader = []
      · simp [hch, hinv hch]
      · simp [hch]
    rw [hjunk]
    simp only [List.nil_append]
    have hname : h.name ≠ [] := (hw h (List.mem_cons_self h t)).1
    rw [ih (fun x hx => hw x (List.mem_cons_of_mem h hx)) _ (fun hc => absurd hc hname)]
    rw [List.foldl_cons]
    congr 1
    unfold flushState
    simp [hname]

theorem renderLines_ne_nil (h : HeaderLine) (t : List HeaderLine) :
    renderLines (h :: t) ≠ [] := by
  rw [renderLines_cons, renderLine]
  simp

theorem renderLines_no_cr (hs : List HeaderLine) (hw : ∀ h ∈ hs, WFHeader h) :
    ∀ l ∈ renderLines hs, '\r' ∉ l := by
  induction hs with
  | nil => intro l hl; simp [renderLines] at hl
  | cons h t ih =>
    intro l hl
    rw [renderLines_cons] at hl
    rcases List.mem_append.mp hl with hl1 | hl2
    · obtain ⟨_, _, _, _, hcr1, hcr2, hconts⟩ := hw h (List.mem_cons_self h t)
      rw [renderLine] at hl1
      rcases List.mem_cons.mp hl1 with rfl | hc
      · simp [renderFirst, List.mem_append, List.mem_cons, hcr1, hcr2]
      · exact (hconts l hc).2
    · exact ih (fun x hx => hw x (List.mem_cons_of_mem h hx)) l hl2

/-- `parseHeaders` on a rendered well-formed block computes the spec-side
left fold of last-wins inserts of folded values. -/
theorem parseHeaders_renderBlock (hs : List HeaderLine) (hw : ∀ h ∈ hs, WFHeader h) :
    parseHeaders (renderBlock hs) =
      hs.foldl (fun m h => mapInsert m h.name (foldedValue h)) [] := by
  cases hs with
  | nil => rfl
  | cons h t =>
    unfold parseHeaders renderBlock
    rw [show crlf = '\r' :: ['\n'] from rfl]
    rw [splitOnList_goJoin_lines '\r' ['\n'] (renderLines (h :: t))
      (renderLines_ne_nil h t) (renderLines_no_cr (h :: t) hw)]
    have hmain := foldl_renderLines (h :: t) hw ⟨[], [], []⟩ (fun _ => rfl)
    simpa [flushState] using hmain

theorem getLast?_cons_some {α : Type} (y : α) (ys : List α) :
    ∃ z, (y :: ys).getLast? = some z := by
  induction ys generalizing y with
  | nil => exact ⟨y, rfl⟩
  | cons b bs ih => rw [List.getLast?_cons_cons]; exact ih b

/-- Looking a name up in the last-wins insert fold returns the folded value of
the last logical header carrying that exact name. -/
theorem mapGet_foldl_insert (n : Str) :
    ∀ (hs : List HeaderLine) (m : List (Str × Str)),
      mapGet (hs.foldl (fun m h => mapInsert m h.name (foldedValue h)) m) n =
        ((hs.filter (fun h => h.name == n)).getLast?).elim (mapGet m n) foldedValue := by
  intro hs
  induction hs with
  | nil => intro m; rfl
  | cons h t ih =>
    intro m
    rw [List.foldl_cons, ih, List.filter_cons]
    cases hft : (t.filter (fun h => h.name == n)) with
    | nil =>
      cases hhn : (h.name == n) with
      | true =>
        have hn : h.name = n := by simpa using hhn
        simp [hhn, ← hn, mapGet_mapInsert_self]
      | false =>
        have hne : n ≠ h.name := fun he => by rw [he] at hhn; simp at hhn
        simp [hhn, mapGet_mapInsert_ne m h.name (foldedValue h) n hne]
    | cons y ys =>
      obtain ⟨z, hz⟩ := getLast?_cons_some y ys
      cases hhn : (h.name == n) with
      | true => simp [hhn, hz, List.getLast?_cons_cons]
      | false => simp [hhn, hz]

theorem mem_keys_foldl_insert (n : Str) :
    ∀ (hs : List HeaderLine) (m : List (Str × Str)),
      n ∈ ((hs.foldl (fun m h => mapInsert m h.name (foldedValue h)) m).map Prod.fst) ↔
        n ∈ m.map Prod.fst ∨ ∃ h ∈ hs, h.name = n := by
  intro hs
  induction hs with
  | nil => intro m; simp
  | cons h t ih =>
    intro m
    rw [List.foldl_cons, ih, mem_keys_mapInsert]
    simp only [List.mem_cons]
    constructor
    · rintro ((rfl | hm) | ⟨x, hx, rfl⟩)
      · exact Or.inr ⟨h, Or.inl rfl, rfl⟩
      · exact Or.inl hm
      · exact Or.inr ⟨x, Or.inr hx, rfl⟩
    · rintro (hm | ⟨x, (rfl | hx), rfl⟩)
      · exact Or.inl (Or.inr hm)
      · exact Or.inl (Or.inl rfl)
      · exact Or.inr ⟨x, hx, rfl⟩

theorem nodup_keys_foldl_insert :
    ∀ (hs : List HeaderLine) (m : List (Str × Str)),
      (m.map Prod.fst).Nodup →
      ((hs.foldl (fun m h => mapInsert m h.name (foldedValue h)) m).map Prod.fst).Nodup := by
  intro hs
  induction hs with
  | nil => exact fun m h => h
  | cons h t ih =>
    intro m hm
    rw [List.foldl_cons]
    exact ih _ (nodup_keys_mapInsert m h.name (foldedValue h) hm)

/-! ### Lemmas about the attachment loop -/

theorem attach_foldl (fs : FS) :
    ∀ (paths : List Str) (acc : List FileAttachment × List Str),
      paths.foldl
        (fun acc path =>
          match fs (trimSpace path) with
          | none => (acc.1, acc.2 ++ [path])
          | some bytes =>
              (acc.1 ++ [{ name := trimSpace path, contentBytes := bytes }], acc.2))
        acc
      = (acc.1 ++ paths.filterMap
            (fun p => (fs (trimSpace p)).map
              (fun b => { name := trimSpace p, contentBytes := b : FileAttachment })),
         acc.2 ++ paths.filter (fun p => (fs (trimSpace p)).isNone)) := by
  intro paths
  induction paths with
  | nil => intro acc; simp
  | cons p ps ih =>
    intro acc
    rw [List.foldl_cons]
    cases hfp : fs (trimSpace p) with
    | none =>
      simp only [hfp]
      rw [ih]
      simp [List.filterMap_cons, List.filter_cons, hfp]
    | some b =>
      simp only [hfp]
      rw [ih]
      simp [List.filterMap_cons, List.filter_cons, hfp]

theorem filterMap_length_count (fs : FS) :
    ∀ paths : List Str,
      (paths.filterMap (fun p => (fs (trimSpace p)).map
          (fun b => { name := trimSpace p, contentBytes := b : FileAttachment }))).length
        + paths.countP (fun p => (fs (trimSpace p)).isNone)
      = paths.length := by
  intro paths
  induction paths with
  | nil => rfl
  | cons p ps ih =>
    cases hfp : fs (trimSpace p) with
    | none =>
      rw [List.filterMap_cons_none (by simp [hfp]), List.countP_cons, List.length_cons]
      simp only [hfp, Option.isNone_none, if_true]
      omega
    | some b =>
      simp [List.filterMap_cons, List.countP_cons, hfp]
      omega

theorem filterMap_names (fs : FS) :
    ∀ paths : List Str,
      (paths.filterMap (fun p => (fs (trimSpace p)).map
          (fun b => { name := trimSpace p, contentBytes := b : FileAttachment }))).map
            FileAttachment.name
        = (paths.filter (fun p => (fs (trimSpace p)).isSome)).map trimSpace := by
  intro paths
  induction paths with
  | nil => rfl
  | cons p ps ih =>
    cases hfp : fs (trimSpace p) with
    | none => simp [List.filterMap_cons, List.filter_cons, hfp, ih]
    | some b => simp [List.filterMap_cons, List.filter_cons, hfp, ih]

/-- The attachment loop keeps exactly the readable paths (as attachments named
by their trimmed path) and logs exactly the unreadable ones. -/
theorem buildAttachments_eq (fs : FS) (headers : List (Str × Str))
    (hne : mapGet headers (strLit "Attachments") ≠ []) :
    buildAttachments fs headers =
      ((splitOnList [','] (mapGet headers (strLit "Attachments"))).filterMap
          (fun p => (fs (trimSpace p)).map
            (fun b => { name := trimSpace p, contentBytes := b : FileAttachment })),
       (splitOnList [','] (mapGet headers (strLit "Attachments"))).filter
          (fun p => (fs (trimSpace p)).isNone)) := by
  unfold buildAttachments
  rw [if_pos (List.length_pos.mpr hne)]
  rw [attach_foldl fs _ ([], [])]
  simp

/-! ### The claims -/

/-- C1 counterexample: after authenticating as alice and then declaring the
MAIL sender mallory, the user id passed to the send call is mallory, not the
authenticated alice — declaring a MAIL sender after authenticating does change
the send-as identity. -/
theorem C1_counterexample :
    (sessionData emptyFS
        (mail (authPlain newSession (strLit "alice@example.com") (strLit "pw")).1
          (strLit "mallory@example.com")).1
        (strLit "Subject: Hi\r\n\r\nx")).userId = strLit "mallory@example.com" ∧
    strLit "mallory@example.com" ≠ strLit "alice@example.com" :=
  ⟨by decide, by decide⟩

/-- C1 (amended): `AuthPlain` and `Mail` store into the same session field, and
the send call uses its most recent value: a `MAIL` command issued after
authentication overwrites the authenticated identity with the declared sender,
which then becomes the send-as mailbox. -/
theorem C1_amended_send_identity :
    (∀ (fs : FS) (s : Session) (f raw : Str),
        (sessionData fs (mail s f).1 raw).userId = f) ∧
    (∀ (fs : FS) (s : Session) (u p raw : Str),
        (sessionData fs (authPlain s u p).1 raw).userId = u) :=
  ⟨fun _ _ _ _ => rfl, fun _ _ _ _ _ => rfl⟩

/-- C2: evaluating `Session.Data` on a raw message whose body itself contains
a CRLF CRLF: the code keeps only `parts[1]`, the segment between the first and
second blank-line separators, dropping the rest of the body instead of
carrying everything after the first separator. -/
theorem C2_split_truncates_body :
    (sessionData emptyFS
        { «from» := strLit "alice@example.com", «to» := [strLit "bob@example.com"] }
        (strLit "Subject: Hi\r\n\r\nHello\r\n\r\nWorld")).request.message.body.content
      = strLit "Hello" ∧
    strLit "Hello" ≠ strLit "Hello\r\n\r\nWorld" :=
  ⟨by decide, by decide⟩

/-- C3 counterexample: `Reset` clears the shared `from` field, so after
authenticating as alice and resetting, a subsequent message is sent with the
empty identity rather than alice. -/
theorem C3_counterexample :
    (sessionData emptyFS
        (reset (authPlain newSession (strLit "alice@example.com") (strLit "pw")).1)
        (strLit "Subject: Hi\r\n\r\nx")).userId = [] ∧
    ([] : Str) ≠ strLit "alice@example.com" :=
  ⟨by decide, by decide⟩

/-- C3 (amended): `Reset` clears the declared sender, the recipient list and
the authenticated identity alike (identity and sender share the one `from`
field), so a message submitted right after `Reset` is sent with the empty
identity, not the one captured at authentication. -/
theorem C3_amended_reset :
    ∀ (fs : FS) (s : Session) (raw : Str),
      (reset s).«to» = [] ∧ (reset s).«from» = [] ∧
      (sessionData fs (reset s) raw).userId = [] :=
  fun _ _ _ => ⟨rfl, rfl, rfl⟩

/-- C4: on a block of well-formed header lines the parser produces exactly one
entry per distinct header name; the value of a repeated name is the one from
its last occurrence; continuation lines are folded into the preceding header
value joined by single spaces. -/
theorem C4_parse_wellformed (hs : List HeaderLine) (hw : ∀ h ∈ hs, WFHeader h) :
    ((parseHeaders (renderBlock hs)).map Prod.fst).Nodup ∧
    (∀ n, n ∈ (parseHeaders (renderBlock hs)).map Prod.fst ↔ ∃ h ∈ hs, h.name = n) ∧
    (∀ n, mapGet (parseHeaders (renderBlock hs)) n =
        ((hs.filter (fun h => h.name == n)).getLast?).elim [] foldedValue) := by
  rw [parseHeaders_renderBlock hs hw]
  refine ⟨nodup_keys_foldl_insert hs [] (by simp), fun n => ?_, fun n => ?_⟩
  · rw [mem_keys_foldl_insert n hs []]
    simp
  · rw [mapGet_foldl_insert n hs []]
    rfl

/-- C4 witness: a block with a folded `Subject`, another header, and a second
`Subject` whose (last) value wins. -/
theorem C4_parse_wellformed_witness :
    (∀ h ∈ ([⟨strLit "Subject", strLit " Hi", [strLit " there"]⟩,
             ⟨strLit "X-Flag", strLit " 1", []⟩,
             ⟨strLit "Subject", strLit " Bye", []⟩] : List HeaderLine), WFHeader h) ∧
    mapGet (parseHeaders (renderBlock
        ([⟨strLit "Subject", strLit " Hi", [strLit " there"]⟩,
          ⟨strLit "X-Flag", strLit " 1", []⟩,
          ⟨strLit "Subject", strLit " Bye", []⟩] : List HeaderLine)))
      (strLit "Subject") = strLit "Bye" := by
  constructor
  · decide
  · rw [(C4_parse_wellformed _ (by decide)).2.2 (strLit "Subject")]
    decide

/-- C5 counterexample: a first line that is a continuation line is not
dropped: its trimmed content, with a leading space, ends up prepended to the
value of the first real header (`Subject` maps to " junkHi"). -/
theorem C5_counterexample :
    mapGet (parseHeaders (strLit " junk\r\nSubject: Hi")) (strLit "Subject")
      = strLit " junkHi" ∧
    containsSub (mapGet (parseHeaders (strLit " junk\r\nSubject: Hi")) (strLit "Subject"))
      (strLit "junk") = true :=
  ⟨by decide, by decide⟩

/-- C5 (amended): when the very first line of the block is a continuation
line, the parser does not drop it: on any well-formed block that follows, its
trimmed content, preceded by one space, is prepended to the value inserted for
the first well-formed header (it forms no entry of its own, the remaining
headers being processed as usual in last-wins order); only when no header
follows at all is the line discarded, yielding an empty map. -/
theorem C5_amended_leading_cont (c : Str) (hc : startsWithSpaceTab c = true)
    (hcr : '\r' ∉ c) (h : HeaderLine) (t : List HeaderLine)
    (hw : ∀ x ∈ h :: t, WFHeader x) :
    parseHeaders (goJoin crlf (c :: renderLines (h :: t))) =
      t.foldl (fun m x => mapInsert m x.name (foldedValue x))
        [(h.name, ([' '] ++ trimSpace c) ++ foldedValue h)] ∧
    parseHeaders c = [] := by
  have hwh : WFHeader h := hw h (List.mem_cons_self h t)
  have hname : h.name ≠ [] := hwh.1
  constructor
  · unfold parseHeaders
    rw [show crlf = '\r' :: ['\n'] from rfl]
    rw [splitOnList_goJoin_lines '\r' ['\n'] (c :: renderLines (h :: t)) (by simp)
      (by
        intro l hl
        rcases List.mem_cons.mp hl with rfl | hl2
        · exact hcr
        · exact renderLines_no_cr (h :: t) hw l hl2)]
    rw [List.foldl_cons, parseHeadersLine_cont _ c hc, renderLines_cons,
      List.foldl_append, foldl_renderLine h hwh _,
      foldl_renderLines t (fun x hx => hw x (List.mem_cons_of_mem h hx)) _
        (fun hcontra => absurd hcontra hname)]
    simp [flushState, mapInsert, hname]
  · unfold parseHeaders
    have hsplit : splitOnList crlf c = [c] := by
      rw [show crlf = '\r' :: ['\n'] from rfl]
      have hj := splitOnList_goJoin_lines '\r' ['\n'] [c] (by simp)
        (by simpa using hcr)
      simpa [goJoin] using hj
    rw [hsplit, List.foldl_cons, parseHeadersLine_cont _ c hc]
    rfl

/-- C5 amended witness: leading continuation " junk" before the two-header
block "Subject: Hi", "X-Flag: 1", and the same line on its own. -/
theorem C5_amended_leading_cont_witness :
    (startsWithSpaceTab (strLit " junk") = true ∧ '\r' ∉ strLit " junk" ∧
      (∀ x ∈ ([⟨strLit "Subject", strLit " Hi", []⟩,
               ⟨strLit "X-Flag", strLit " 1", []⟩] : List HeaderLine), WFHeader x)) ∧
    (parseHeaders (goJoin crlf (strLit " junk" ::
        renderLines ([⟨strLit "Subject", strLit " Hi", []⟩,
                      ⟨strLit "X-Flag", strLit " 1", []⟩] : List HeaderLine)))
      = ([⟨strLit "X-Flag", strLit " 1", []⟩] : List HeaderLine).foldl
          (fun m x => mapInsert m x.name (foldedValue x))
          [(strLit "Subject",
            ([' '] ++ trimSpace (strLit " junk"))
              ++ foldedValue ⟨strLit "Subject", strLit " Hi", []⟩)] ∧
     parseHeaders (strLit " junk") = []) :=
  ⟨⟨by decide, by decide, by decide⟩,
   C5_amended_leading_cont (strLit " junk") (by decide) (by decide)
     ⟨strLit "Subject", strLit " Hi", []⟩
     [⟨strLit "X-Flag", strLit " 1", []⟩] (by decide)⟩

/-- C6 counterexample: the `Content-Type` lookup is case-sensitive: a message
whose header is named "content-type" (with a value containing "HTML") is
still typed as plain text, although a case-insensitive lookup would find a
value containing "html". -/
theorem C6_counterexample :
    (sessionData emptyFS { «from» := strLit "a@x", «to» := [strLit "b@x"] }
        (strLit "content-type: text/HTML\r\n\r\nx")).request.message.body.contentType
      = BodyType.text ∧
    containsSub (toLowerGo (mapGet (parseHeaders (strLit "content-type: text/HTML"))
        (strLit "content-type"))) (strLit "html") = true :=
  ⟨by decide, by decide⟩

/-- C6 (amended): the inferred kind is rich-text iff the value of the header
whose name is exactly `Content-Type` (case-sensitive lookup; a
differently-cased name counts as missing, yielding plain text) contains
"html" in any letter case. -/
theorem C6_amended_content_type (hs : List HeaderLine) (hw : ∀ h ∈ hs, WFHeader h) :
    inferContentType (parseHeaders (renderBlock hs)) = BodyType.html ↔
      containsSub (toLowerGo
          (((hs.filter (fun h => h.name == strLit "Content-Type")).getLast?).elim []
            foldedValue))
        (strLit "html") = true := by
  unfold inferContentType
  rw [parseHeaders_renderBlock hs hw,
    mapGet_foldl_insert (strLit "Content-Type") hs []]
  have hz : mapGet ([] : List (Str × Str)) (strLit "Content-Type") = [] := rfl
  rw [hz]
  cases hcond : containsSub (toLowerGo
      (((hs.filter (fun h => h.name == strLit "Content-Type")).getLast?).elim
        ([] : Str) foldedValue)) (strLit "html") with
  | true => decide
  | false => decide

/-- C6 amended witness: a block with the exactly-named `Content-Type` header
whose value contains "HTML". -/
theorem C6_amended_content_type_witness :
    (∀ h ∈ ([⟨strLit "Content-Type", strLit " text/HTML", []⟩] : List HeaderLine),
        WFHeader h) ∧
    (inferContentType (parseHeaders (renderBlock
        ([⟨strLit "Content-Type", strLit " text/HTML", []⟩] : List HeaderLine)))
      = BodyType.html ↔
      containsSub (toLowerGo
          (((([⟨strLit "Content-Type", strLit " text/HTML", []⟩] : List HeaderLine).filter
              (fun h => h.name == strLit "Content-Type")).getLast?).elim []
            foldedValue))
        (strLit "html") = true) :=
  ⟨by decide, C6_amended_content_type _ (by decide)⟩

/-- C7: with zero declared recipients the translation of `Session.Data` is
total (it is a Lean function) and the outbound request carries an empty
recipient list. -/
theorem C7_empty_recipients (fs : FS) (f raw : Str) :
    (sessionData fs { «from» := f, «to» := [] } raw).request.message.toRecipients = [] :=
  rfl

/-- C8: if among the comma-separated attachment paths exactly one (after
trimming) is unreadable, the request carries exactly N-1 attachments, each
named by its trimmed path string, the unreadable token is logged as exactly
one warning, and the remaining attachments are still produced. -/
theorem C8_one_unreadable (fs : FS) (headers : List (Str × Str))
    (hne : mapGet headers (strLit "Attachments") ≠ [])
    (hone : (splitOnList [','] (mapGet headers (strLit "Attachments"))).countP
        (fun p => (fs (trimSpace p)).isNone) = 1) :
    (buildAttachments fs headers).1.length + 1 =
      (splitOnList [','] (mapGet headers (strLit "Attachments"))).length ∧
    (buildAttachments fs headers).1.map FileAttachment.name =
      ((splitOnList [','] (mapGet headers (strLit "Attachments"))).filter
        (fun p => (fs (trimSpace p)).isSome)).map trimSpace ∧
    (buildAttachments fs headers).2 =
      (splitOnList [','] (mapGet headers (strLit "Attachments"))).filter
        (fun p => (fs (trimSpace p)).isNone) ∧
    (buildAttachments fs headers).2.length = 1 := by
  have hb := buildAttachments_eq fs headers hne
  have h1 : (buildAttachments fs headers).1 =
      (splitOnList [','] (mapGet headers (strLit "Attachments"))).filterMap
        (fun p => (fs (trimSpace p)).map
          (fun b => { name := trimSpace p, contentBytes := b : FileAttachment })) := by
    rw [hb]
  have h2 : (buildAttachments fs headers).2 =
      (splitOnList [','] (mapGet headers (strLit "Attachments"))).filter
        (fun p => (fs (trimSpace p)).isNone) := by
    rw [hb]
  refine ⟨?_, ?_, h2, ?_⟩
  · rw [h1]
    have hlen := filterMap_length_count fs
      (splitOnList [','] (mapGet headers (strLit "Attachments")))
    omega
  · rw [h1]
    exact filterMap_names fs _
  · rw [h2, ← List.countP_eq_length_filter]
    exact hone

/-- The file system of the C8 witness: only "a.txt" is readable. -/
def fsOneGood : FS := fun p => if p = strLit "a.txt" then some [104, 105] else none

/-- C8 witness: attachments "a.txt, b.txt" where only "a.txt" is readable. -/
theorem C8_one_unreadable_witness :
    (mapGet [(strLit "Attachments", strLit "a.txt, b.txt")] (strLit "Attachments") ≠ [] ∧
     (splitOnList [','] (mapGet [(strLit "Attachments", strLit "a.txt, b.txt")]
        (strLit "Attachments"))).countP
          (fun p => (fsOneGood (trimSpace p)).isNone) = 1) ∧
    (buildAttachments fsOneGood [(strLit "Attachments", strLit "a.txt, b.txt")]).1.length + 1 =
      (splitOnList [','] (mapGet [(strLit "Attachments", strLit "a.txt, b.txt")]
        (strLit "Attachments"))).length ∧
    (buildAttachments fsOneGood [(strLit "Attachments", strLit "a.txt, b.txt")]).2.length = 1 :=
  ⟨⟨by decide, by decide⟩,
   (C8_one_unreadable fsOneGood [(strLit "Attachments", strLit "a.txt, b.txt")]
      (by decide) (by decide)).1,
   (C8_one_unreadable fsOneGood [(strLit "Attachments", strLit "a.txt, b.txt")]
      (by decide) (by decide)).2.2.2⟩

/-- C9: the end-to-end scenario — authenticate as alice, declare sender alice
and recipient bob, submit `Subject: Hi` with plain text body "Hello Bob" —
yields subject "Hi", plain-text body "Hello Bob", exactly bob as recipient,
no attachments, save-to-sent true, sent as alice. -/
theorem C9_end_to_end :
    sessionData emptyFS
        (rcpt (mail (authPlain newSession (strLit "alice@example.com") (strLit "pw")).1
            (strLit "alice@example.com")).1
          (strLit "bob@example.com")).1
        (strLit "Subject: Hi\r\nContent-Type: text/plain\r\n\r\nHello Bob")
      = { userId := strLit "alice@example.com",
          request :=
            { message :=
                { subject := strLit "Hi",
                  body := { content := strLit "Hello Bob", contentType := BodyType.text },
                  toRecipients := [{ address := strLit "bob@example.com" }],
                  attachments := [] },
              saveToSentItems := true },
          warnings := [] } := by decide

/-- C10: `AuthPlain` accepts every username/password pair: it always returns a
nil error and stores the username as the session identity, so no client is
rejected at this layer. -/
theorem C10_auth_accepts_all (s : Session) (u p : Str) :
    (authPlain s u p).2 = none ∧ (authPlain s u p).1.«from» = u := ⟨rfl, rfl⟩

end GoGraphSMTP
